import Mathlib

/-!
Verification of the CSP scheduling core in src/csp_solver.py.

Embedding conventions:
* A datetime is a natural number: a calendar date is a day number d, and the
  hourly slot h of day d is the number 24 * d + h (this models
  datetime.combine(date, time(hour)) and preserves chronological order).
* Python sets of datetimes become Finset Nat; the constraint set and the AC-3
  worklist (Python sets with arbitrary iteration order) become lists processed
  front-first, with de-duplicating insertion at the back for the worklist.
* Python exceptions become Except String; an out-of-range list index in
  remove_inconsistent_values (Python IndexError) is modelled by Option.
* The recursive backtracker and the AC-3 loop take an explicit fuel argument so
  that recursion is structural; the callers pass a fuel that provably dominates
  the recursion depth, so the fuel-exhaustion branch is unreachable there.
-/

/-- Modelled from the spec: date_constraints.py is not under src/. The spec's
constraint collaborator contract exposes a comparison operator between the left
variable's value and the right-hand side; operators are the usual comparisons,
and directional ones are flipped by get_reverse ("before" becomes "after"). -/
inductive COp where
  | ceq
  | cne
  | clt
  | cgt
  | cle
  | cge
deriving DecidableEq

/-- Evaluation of a comparison operator on two datetime values. -/
def COp.eval : COp → Nat → Nat → Bool
  | .ceq, a, b => a == b
  | .cne, a, b => a != b
  | .clt, a, b => decide (a < b)
  | .cgt, a, b => decide (b < a)
  | .cle, a, b => decide (a ≤ b)
  | .cge, a, b => decide (b ≤ a)

/-- Modelled from the spec: the operator with its direction flipped, used by
get_reverse so that the reversed constraint preserves meaning. -/
def COp.reverse : COp → COp
  | .ceq => .ceq
  | .cne => .cne
  | .clt => .cgt
  | .cgt => .clt
  | .cle => .cge
  | .cge => .cle

/-- Modelled from the spec: R_VAL is either an integer variable index or a
fixed datetime value. -/
inductive RVal where
  | var (i : Nat)
  | val (d : Nat)
deriving DecidableEq

/-- Modelled from the spec: the DateConstraint collaborator. ARITY is 1 or 2;
L_VAL is the left variable index; for a unary constraint R_VAL holds the fixed
comparison datetime, for a binary constraint it holds either the right variable
index or a fixed comparison value. -/
structure DateConstraint where
  ARITY : Nat
  L_VAL : Nat
  op : COp
  R_VAL : RVal
deriving DecidableEq

/-- Modelled from the spec: the arity() accessor of a DateConstraint. -/
def DateConstraint.arity (c : DateConstraint) : Nat := c.ARITY

/-- Modelled from the spec: is_satisfied_by_values(left, right); for a unary
constraint the second argument is unused and the stored date is compared, for
a binary constraint the caller supplies the right-hand value. -/
def DateConstraint.is_satisfied_by_values (c : DateConstraint) (l : Nat)
    (r : Option Nat) : Bool :=
  if c.ARITY = 1 then
    match c.R_VAL with
    | .val d => c.op.eval l d
    | .var _ => false
  else
    match r with
    | some rv => c.op.eval l rv
    | none => false

/-- Modelled from the spec: get_reverse swaps L_VAL and R_VAL on a binary
constraint whose R_VAL is a variable index and flips the operator's direction.
(In the solver it is only reached on such constraints: Arc construction fails
first on any other shape.) -/
def DateConstraint.get_reverse (c : DateConstraint) : DateConstraint :=
  match c.R_VAL with
  | .var j => ⟨c.ARITY, j, c.op.reverse, .var c.L_VAL⟩
  | .val _ => c

/-- An assignment is an ordered list of (variable, datetime value) pairs. -/
abbrev Assignment := List (Nat × Nat)

/-- select_unassigned_variable: the first variable of the list that does not
already occur in the assignment (csp_solver.py lines 115-136). -/
def select_unassigned_variable (vars : List Nat) (assignment : Assignment) :
    Option Nat :=
  vars.find? (fun v => decide (v ∉ assignment.map Prod.fst))

/-- Ascending sorted list of a multiset of naturals. Insertion sort is used
because it is structurally recursive, hence evaluable inside the kernel; its
result on any list representing the multiset is the same, because two sorted
permutations of one another are equal. -/
def multisetSorted (s : Multiset Nat) : List Nat :=
  Quot.liftOn s (List.insertionSort (· ≤ ·)) (fun _ _ h =>
    List.eq_of_perm_of_sorted
      ((List.perm_insertionSort _ _).trans (h.trans (List.perm_insertionSort _ _).symm))
      (List.sorted_insertionSort _ _) (List.sorted_insertionSort _ _))

/-- order_domain_values: the domain sorted ascending (csp_solver.py line 151). -/
def order_domain_values (domain : Finset Nat) : List Nat :=
  multisetSorted domain.val

/-- The body of is_consistent's loop for one constraint (csp_solver.py lines
170-189): skip a constraint whose left index is not below the assignment's
length; resolve the right side to an assigned value or fixed value; skip a
binary constraint whose right side is unresolved; otherwise test the pair.
Note the source indexes the assignment list positionally by L_VAL and R_VAL. -/
def constraintCheck (assignment : Assignment) (c : DateConstraint) : Bool :=
  if c.L_VAL ≥ assignment.length then true
  else
    let left_date := (assignment.getD c.L_VAL (0, 0)).2
    let right_date : Option Nat :=
      if c.ARITY = 2 then
        match c.R_VAL with
        | .var j => if assignment.length > j then some ((assignment.getD j (0, 0)).2) else none
        | .val d => some d
      else none
    if right_date = none ∧ c.ARITY = 2 then true
    else c.is_satisfied_by_values left_date right_date

/-- is_consistent: every constraint passes its check (csp_solver.py 154-190). -/
def is_consistent (assignment : Assignment) (constraints : List DateConstraint) :
    Bool :=
  constraints.all (constraintCheck assignment)

/-- node_consistency (csp_solver.py lines 195-230): for every variable index,
keep exactly the values that satisfy every unary constraint bound to it. -/
def node_consistency (domains : List (Finset Nat)) (constraints : List DateConstraint) :
    List (Finset Nat) :=
  (List.range domains.length).map (fun i =>
    (domains.getD i ∅).filter (fun v =>
      ∀ c ∈ constraints, c.arity = 1 → c.L_VAL = i →
        c.is_satisfied_by_values v none = true))

/-- Arc (csp_solver.py lines 235-298): a directed (TAIL → HEAD) pair carrying
its constraint; value equality is by constraint, tail and head. -/
structure Arc where
  CONSTRAINT : DateConstraint
  TAIL : Nat
  HEAD : Nat
deriving DecidableEq

/-- Arc construction (csp_solver.py lines 256-270): TAIL is the constraint's
L_VAL; HEAD must be an integer variable index, otherwise ValueError. -/
def mkArc (constraint : DateConstraint) : Except String Arc :=
  match constraint.R_VAL with
  | .var j => Except.ok ⟨constraint, constraint.L_VAL, j⟩
  | .val _ => Except.error "[X] Cannot create Arc from Unary Constraint"

/-- De-duplicating insertion at the back of the worklist, modelling set.add. -/
def addArc (arcs : List Arc) (a : Arc) : List Arc :=
  if a ∈ arcs then arcs else arcs ++ [a]

/-- Loop of initialize_arcs (csp_solver.py lines 348-353): for every arity-2
constraint add its forward arc and the arc of its reverse; Arc construction of
the forward arc is attempted first, so its ValueError propagates first. -/
def initArcsAux (acc : List Arc) : List DateConstraint → Except String (List Arc)
  | [] => Except.ok acc
  | c :: rest =>
    if c.ARITY = 2 then
      match mkArc c with
      | Except.error e => Except.error e
      | Except.ok a1 =>
        match mkArc c.get_reverse with
        | Except.error e => Except.error e
        | Except.ok a2 => initArcsAux (addArc (addArc acc a1) a2) rest
    else initArcsAux acc rest

/-- initialize_arcs (csp_solver.py lines 336-354). -/
def initialize_arcs (constraints : List DateConstraint) : Except String (List Arc) :=
  initArcsAux [] constraints

/-- get_arcs_for_variable (csp_solver.py lines 387-405): the forward arcs of
the arity-2 constraints whose R_VAL equals the given variable index. -/
def get_arcs_for_variable (v : Nat) (constraints : List DateConstraint) :
    List Arc :=
  constraints.foldl (fun acc c =>
    if c.ARITY = 2 ∧ c.R_VAL = RVal.var v then addArc acc ⟨c, c.L_VAL, v⟩
    else acc) []

/-- remove_inconsistent_values (csp_solver.py lines 357-384): keep in the tail
domain exactly the values with a supporting head value; report whether any
value was removed. none models the IndexError on an out-of-range index. -/
def remove_inconsistent_values (domains : List (Finset Nat)) (curr_arc : Arc) :
    Option (List (Finset Nat) × Bool) :=
  if h : curr_arc.TAIL < domains.length ∧ curr_arc.HEAD < domains.length then
    let tail_domain := domains.get ⟨curr_arc.TAIL, h.1⟩
    let head_domain := domains.get ⟨curr_arc.HEAD, h.2⟩
    let newTail := tail_domain.filter (fun tail_val =>
      ∃ head_val ∈ head_domain,
        curr_arc.CONSTRAINT.is_satisfied_by_values tail_val (some head_val) = true)
    some (domains.set curr_arc.TAIL newTail, decide (newTail ≠ tail_domain))
  else none

/-- Total number of values over all domains, the AC-3 termination measure. -/
def domSize (domains : List (Finset Nat)) : Nat :=
  (domains.map Finset.card).sum

/-- Worklist loop of arc_consistency (csp_solver.py lines 329-333): pop the
front arc, revise, and on a removal re-add the arcs get_arcs_for_variable
returns for the revised tail. The Bool is false exactly on IndexError or fuel
exhaustion; the caller's fuel dominates the loop's measure, so there
exhaustion is unreachable. -/
def acLoopF : Nat → List (Finset Nat) → List DateConstraint → List Arc →
    List (Finset Nat) × Bool
  | 0, doms, _, _ => (doms, false)
  | Nat.succ fuel, doms, cs, wl =>
    match wl with
    | [] => (doms, true)
    | arc :: rest =>
      match remove_inconsistent_values doms arc with
      | none => (doms, false)
      | some (newDoms, removed) =>
        if removed then
          acLoopF fuel newDoms cs ((get_arcs_for_variable arc.TAIL cs).foldl addArc rest)
        else acLoopF fuel newDoms cs rest

/-- arc_consistency (csp_solver.py lines 301-333): build the worklist and run
the loop; the error is the propagated ValueError of Arc construction or the
IndexError of an out-of-range constraint index. -/
def arc_consistency (domains : List (Finset Nat)) (constraints : List DateConstraint) :
    Except String (List (Finset Nat)) :=
  match initialize_arcs constraints with
  | Except.error e => Except.error e
  | Except.ok arcs =>
    match acLoopF (domSize domains * (constraints.length + 1) + arcs.length + 1)
        domains constraints arcs with
    | (newDoms, true) => Except.ok newDoms
    | (_, false) => Except.error "IndexError: list index out of range"

/-- One step of recursive_backtracker (csp_solver.py lines 73-112), with the
value loop made explicit: mode none is the entry of a call frame, mode
some (v, vals) is the loop over the remaining ordered domain values vals of the
selected variable v. The assignment list is threaded explicitly, modelling the
shared mutable list: the append before the recursive call and the pop
(dropLast) after it are the source's push/pop pair. Fuel only bounds the
recursion depth of this call structure; the caller passes enough. -/
def rbStep : Nat → Option (Nat × List Nat) → Assignment → List Nat →
    List (Finset Nat) → List DateConstraint → Option Assignment × Assignment
  | 0, _, assignment, _, _, _ => (none, assignment)
  | Nat.succ fuel, none, assignment, vars, domains, constraints =>
    if assignment.length = vars.length then (some assignment, assignment)
    else
      match select_unassigned_variable vars assignment with
      | none => (none, assignment)
      | some v =>
        rbStep fuel (some (v, order_domain_values (domains.getD v ∅)))
          assignment vars domains constraints
  | Nat.succ fuel, some (v, vals), assignment, vars, domains, constraints =>
    match vals with
    | [] => (none, assignment)
    | d :: rest =>
      let a1 := assignment ++ [(v, d)]
      if is_consistent a1 constraints then
        let result := rbStep fuel none a1 vars domains constraints
        match result.1 with
        | some r => (some r, result.2)
        | none =>
          rbStep fuel (some (v, rest)) result.2.dropLast vars domains constraints
      else rbStep fuel (some (v, rest)) a1.dropLast vars domains constraints

/-- recursive_backtracker (csp_solver.py lines 73-112). -/
def recursive_backtracker (fuel : Nat) (assignment : Assignment)
    (vars : List Nat) (domains : List (Finset Nat))
    (constraints : List DateConstraint) : Option Assignment × Assignment :=
  rbStep fuel none assignment vars domains constraints

/-- Largest domain cardinality, used to bound the backtracker's fuel. -/
def maxDomCard (domains : List (Finset Nat)) : Nat :=
  (domains.map Finset.card).foldr Nat.max 0

/-- Domain pool built by solve (csp_solver.py lines 55-59): every date of the
range expanded into its 24 hourly slots. -/
def expandDateRange (date_range : Finset Nat) : Finset Nat :=
  date_range.biUnion (fun d => (Finset.range 24).image (fun hour => 24 * d + hour))

/-- solve (csp_solver.py lines 23-70): build one domain per meeting, prune by
node then arc consistency, search, and map a non-empty solution to its dates;
a falsy search result (None or the empty list) becomes the none outcome. -/
def solve (n_meetings : Nat) (date_range : Finset Nat)
    (constraints : List DateConstraint) : Except String (Option (List Nat)) :=
  let new_date_range := expandDateRange date_range
  let domains := List.replicate n_meetings new_date_range
  let domains1 := node_consistency domains constraints
  match arc_consistency domains1 constraints with
  | Except.error e => Except.error e
  | Except.ok domains2 =>
    let fuel := n_meetings * (maxDomCard domains2 + 2) + 1
    let solution := (recursive_backtracker fuel [] (List.range n_meetings)
      domains2 constraints).1
    match solution with
    | some s => if s.isEmpty then Except.ok none else Except.ok (some (s.map Prod.snd))
    | none => Except.ok none

/-- A full solution over given index-to-value function: every constraint of the
list is satisfied by the values it draws, in the sense of the spec's
testable-property section. -/
def SatisfiesAll (sol : Nat → Nat) (constraints : List DateConstraint) : Prop :=
  ∀ c ∈ constraints,
    (c.ARITY = 1 → c.is_satisfied_by_values (sol c.L_VAL) none = true) ∧
    (c.ARITY = 2 → ∀ j, c.R_VAL = RVal.var j →
      c.is_satisfied_by_values (sol c.L_VAL) (some (sol j)) = true) ∧
    (c.ARITY = 2 → ∀ d, c.R_VAL = RVal.val d →
      c.is_satisfied_by_values (sol c.L_VAL) (some d) = true)

/-- The in-order partial assignment that maps each variable i < k to sol i. -/
def solInit (sol : Nat → Nat) (k : Nat) : Assignment :=
  (List.range k).map (fun i => (i, sol i))

/-- Unfolding equation of solve, phrased without local lets. -/
theorem solve_unfold (n : Nat) (dr : Finset Nat) (cs : List DateConstraint) :
    solve n dr cs =
      match arc_consistency (node_consistency (List.replicate n (expandDateRange dr)) cs) cs with
      | Except.error e => Except.error e
      | Except.ok domains2 =>
        match (recursive_backtracker (n * (maxDomCard domains2 + 2) + 1) []
            (List.range n) domains2 cs).1 with
        | some s => if s.isEmpty then Except.ok none else Except.ok (some (s.map Prod.snd))
        | none => Except.ok none := rfl

/-- When no constraint has arity 2, the arc worklist construction returns its
accumulator unchanged. -/
theorem initArcsAux_no_binary (acc : List Arc) (cs : List DateConstraint)
    (h : ∀ c ∈ cs, c.ARITY ≠ 2) : initArcsAux acc cs = Except.ok acc := by
  induction cs generalizing acc with
  | nil => rfl
  | cons c rest ih =>
    have hc : c.ARITY ≠ 2 := h c (List.mem_cons_self c rest)
    simp only [initArcsAux, if_neg hc]
    exact ih acc (fun c' hc' => h c' (List.mem_cons_of_mem c hc'))

/-- C3 (code bug): the AC-3 implementation does not reach the arc-consistency
fixpoint. On domains [{0,5},{3,7},{4}] with the binary constraints
meeting0 ≤ meeting1 and meeting0 > meeting2, the first run only removes the
value 0 of variable 0 and fails to re-check the reverse arc (1 → 0), leaving
the unsupported value 3 in variable 1's domain; a second run removes it, so
re-running arc_consistency on its own output is not a no-op. -/
theorem arc_consistency_not_idempotent :
    arc_consistency [{0, 5}, {3, 7}, {4}]
        [⟨2, 0, COp.cle, RVal.var 1⟩, ⟨2, 0, COp.cgt, RVal.var 2⟩]
      = Except.ok [{5}, {3, 7}, {4}] ∧
    arc_consistency [{5}, {3, 7}, {4}]
        [⟨2, 0, COp.cle, RVal.var 1⟩, ⟨2, 0, COp.cgt, RVal.var 2⟩]
      = Except.ok [{5}, {7}, {4}] ∧
    ([{5}, {7}, {4}] : List (Finset Nat)) ≠ [{5}, {3, 7}, {4}] :=
  ⟨rfl, rfl, by decide⟩

/-- C4 (code bug): after revising the tail variable 0, the re-enqueue step
calls get_arcs_for_variable 0, which returns only forward arcs of constraints
whose R_VAL is 0. For the constraint meeting0 ≤ meeting1 the initial worklist
holds the reverse arc (1 → 0), whose head is the revised variable 0, yet
get_arcs_for_variable 0 returns the empty set, so that arc is not re-added. -/
theorem reenqueue_misses_reverse_arcs :
    initialize_arcs [⟨2, 0, COp.cle, RVal.var 1⟩]
      = Except.ok [⟨⟨2, 0, COp.cle, RVal.var 1⟩, 0, 1⟩, ⟨⟨2, 1, COp.cge, RVal.var 0⟩, 1, 0⟩] ∧
    (⟨⟨2, 1, COp.cge, RVal.var 0⟩, 1, 0⟩ : Arc).HEAD = 0 ∧
    get_arcs_for_variable 0 [⟨2, 0, COp.cle, RVal.var 1⟩] = [] :=
  ⟨rfl, rfl, rfl⟩

/-- C7: with one meeting, the single date 2024-01-01 (modelled as day number
20240101) and no constraints, the built domain is exactly the 24 hourly slots
of that day, the domain values are tried in ascending chronological order, and
solve returns the chronologically smallest slot, hour 0 of that day. -/
theorem solve_trivial_scenario :
    expandDateRange {20240101}
      = (Finset.range 24).image (fun hour => 24 * 20240101 + hour) ∧
    order_domain_values (expandDateRange {20240101})
      = (List.range 24).map (fun hour => 24 * 20240101 + hour) ∧
    solve 1 {20240101} [] = Except.ok (some [24 * 20240101]) :=
  ⟨rfl, rfl, rfl⟩

/-- C8: constructing an Arc from a unary constraint — one whose R_VAL is not a
variable index but a stored date — signals the ValueError immediately; no Arc
value results. -/
theorem arc_from_unary_errors (c : DateConstraint) (d : Nat)
    (h1 : c.ARITY = 1) (hval : c.R_VAL = RVal.val d) :
    mkArc c = Except.error "[X] Cannot create Arc from Unary Constraint" := by
  unfold mkArc
  rw [hval]

/-- Witness for C8 at a concrete unary constraint. -/
theorem arc_from_unary_errors_witness :
    mkArc ⟨1, 0, COp.cne, RVal.val 9⟩
      = Except.error "[X] Cannot create Arc from Unary Constraint" :=
  arc_from_unary_errors ⟨1, 0, COp.cne, RVal.val 9⟩ 9 rfl rfl

/-- The worklist construction fails with the Arc ValueError whenever some
arity-2 constraint carries a fixed value in R_VAL. -/
theorem initArcsAux_error_of_fixed_rval (cs : List DateConstraint)
    (c : DateConstraint) (hc : c ∈ cs) (h2 : c.ARITY = 2) (d : Nat)
    (hval : c.R_VAL = RVal.val d) (acc : List Arc) :
    initArcsAux acc cs = Except.error "[X] Cannot create Arc from Unary Constraint" := by
  induction cs generalizing acc with
  | nil => cases hc
  | cons c' rest ih =>
    rcases List.mem_cons.mp hc with rfl | hmem
    · simp only [initArcsAux, if_pos h2, mkArc, hval]
    · by_cases h2' : c'.ARITY = 2
      · simp only [initArcsAux, if_pos h2']
        match hm : mkArc c' with
        | Except.error e =>
          unfold mkArc at hm
          match hr : c'.R_VAL with
          | RVal.var j => rw [hr] at hm; cases hm
          | RVal.val d' => rw [hr] at hm; cases hm; rfl
        | Except.ok a1 =>
          have hvar : ∃ j, c'.R_VAL = RVal.var j := by
            unfold mkArc at hm
            match hr : c'.R_VAL with
            | RVal.var j => exact ⟨j, rfl⟩
            | RVal.val d' => rw [hr] at hm; cases hm
          obtain ⟨j, hj⟩ := hvar
          have hrev : mkArc c'.get_reverse
              = Except.ok ⟨c'.get_reverse, c'.get_reverse.L_VAL, c'.L_VAL⟩ := by
            unfold DateConstraint.get_reverse
            rw [hj]
            rfl
          rw [hrev]
          exact ih hmem _
      · simp only [initArcsAux, if_neg h2']
        exact ih hmem acc

/-- C9: a binary constraint whose R_VAL is a fixed datetime value rather than
a variable index makes initialize_arcs raise the Arc ValueError, hence
arc_consistency raises on any domains, hence solve raises for any meeting
count and date range — the constraint is not skipped and no result is
returned. -/
theorem solve_raises_on_fixed_rval (n : Nat) (dr : Finset Nat)
    (cs : List DateConstraint) (c : DateConstraint) (hc : c ∈ cs)
    (h2 : c.ARITY = 2) (d : Nat) (hval : c.R_VAL = RVal.val d) :
    initialize_arcs cs = Except.error "[X] Cannot create Arc from Unary Constraint" ∧
    (∀ doms, arc_consistency doms cs
      = Except.error "[X] Cannot create Arc from Unary Constraint") ∧
    solve n dr cs = Except.error "[X] Cannot create Arc from Unary Constraint" := by
  have hinit : initialize_arcs cs
      = Except.error "[X] Cannot create Arc from Unary Constraint" :=
    initArcsAux_error_of_fixed_rval cs c hc h2 d hval []
  have hac : ∀ doms, arc_consistency doms cs
      = Except.error "[X] Cannot create Arc from Unary Constraint" := by
    intro doms
    unfold arc_consistency
    rw [hinit]
  refine ⟨hinit, hac, ?_⟩
  rw [solve_unfold, hac]

/-- Witness for C9 at a concrete binary constraint with fixed R_VAL. -/
theorem solve_raises_on_fixed_rval_witness :
    initialize_arcs [⟨2, 0, COp.cne, RVal.val 5⟩]
      = Except.error "[X] Cannot create Arc from Unary Constraint" ∧
    (∀ doms, arc_consistency doms [⟨2, 0, COp.cne, RVal.val 5⟩]
      = Except.error "[X] Cannot create Arc from Unary Constraint") ∧
    solve 1 {0} [⟨2, 0, COp.cne, RVal.val 5⟩]
      = Except.error "[X] Cannot create Arc from Unary Constraint" :=
  solve_raises_on_fixed_rval 1 {0} [⟨2, 0, COp.cne, RVal.val 5⟩]
    ⟨2, 0, COp.cne, RVal.val 5⟩ (List.mem_singleton.mpr rfl) rfl 5 rfl

/-- C10 (counterexample to the unrestricted claim): with zero meetings and a
constraint set holding a binary variable-variable constraint, solve raises the
IndexError of remove_inconsistent_values on the empty domains list instead of
returning the no-solution outcome. -/
theorem solve_zero_meetings_cex :
    solve 0 {0} [⟨2, 0, COp.clt, RVal.var 1⟩]
      = Except.error "IndexError: list index out of range" ∧
    ∀ r : Option (List Nat),
      solve 0 {0} [⟨2, 0, COp.clt, RVal.var 1⟩] ≠ Except.ok r :=
  ⟨rfl, fun _ h => Except.noConfusion
    ((show solve 0 {0} [⟨2, 0, COp.clt, RVal.var 1⟩]
      = Except.error "IndexError: list index out of range" from rfl).symm.trans h)⟩

/-- C10 (amended): with zero meetings and a constraint set holding no arity-2
constraint, the search returns the empty assignment, and solve's truthiness
test maps it to the same none outcome as genuine unsatisfiability. -/
theorem solve_zero_meetings_amended (dr : Finset Nat) (cs : List DateConstraint)
    (h : ∀ c ∈ cs, c.ARITY ≠ 2) : solve 0 dr cs = Except.ok none := by
  have hac : arc_consistency (node_consistency (List.replicate 0 (expandDateRange dr)) cs) cs
      = Except.ok [] := by
    show arc_consistency [] cs = Except.ok []
    unfold arc_consistency initialize_arcs
    rw [initArcsAux_no_binary [] cs h]
    rfl
  rw [solve_unfold, hac]
  rfl

/-- Witness for the amended C10 at a concrete unary-only constraint set. -/
theorem solve_zero_meetings_amended_witness :
    solve 0 {3} [⟨1, 0, COp.ceq, RVal.val 7⟩] = Except.ok none :=
  solve_zero_meetings_amended {3} [⟨1, 0, COp.ceq, RVal.val 7⟩]
    (by intro c hc; rw [List.mem_singleton.mp hc]; decide)

/-- Element i of a map over a range, as a getD. -/
theorem getD_map_range (n i : Nat) (f : Nat → Finset Nat) (h : i < n) :
    ((List.range n).map f).getD i ∅ = f i := by
  rw [List.getD_eq_getElem _ _ (by simpa using h)]
  simp

/-- node_consistency only filters each domain. -/
theorem node_consistency_getD_subset (doms : List (Finset Nat))
    (cs : List DateConstraint) (i : Nat) :
    (node_consistency doms cs).getD i ∅ ⊆ doms.getD i ∅ := by
  by_cases h : i < doms.length
  · rw [node_consistency, getD_map_range _ _ _ h]
    exact Finset.filter_subset _ _
  · rw [List.getD_eq_default _ _ (by simpa [node_consistency] using Nat.le_of_not_lt h)]
    exact Finset.empty_subset _

/-- node_consistency preserves the number of domains. -/
theorem node_consistency_length (doms : List (Finset Nat)) (cs : List DateConstraint) :
    (node_consistency doms cs).length = doms.length := by
  simp [node_consistency]

/-- Setting one index to a subset of its value only shrinks the domains. -/
theorem getD_set_subset (doms : List (Finset Nat)) (j : Nat) (s : Finset Nat)
    (hs : s ⊆ doms.getD j ∅) (i : Nat) :
    (doms.set j s).getD i ∅ ⊆ doms.getD i ∅ := by
  by_cases hij : j = i
  · subst hij
    by_cases hj : j < doms.length
    · rw [List.getD_eq_getElem _ _ (by simpa using hj), List.getElem_set_self]
      exact hs
    · rw [List.set_eq_of_length_le (Nat.le_of_not_lt hj)]
  · by_cases hi : i < doms.length
    · rw [List.getD_eq_getElem _ _ (by simpa using hi),
        List.getElem_set_ne hij, ← List.getD_eq_getElem _ _ hi]
    · rw [List.getD_eq_default _ _ (by simpa using Nat.le_of_not_lt hi)]
      exact Finset.empty_subset _

/-- Characterization of a successful revision step: the new domains are the
old ones with the tail domain filtered to its supported values. -/
theorem remove_inconsistent_values_eq (doms : List (Finset Nat)) (arc : Arc)
    (nd : List (Finset Nat)) (b : Bool)
    (h : remove_inconsistent_values doms arc = some (nd, b)) :
    arc.TAIL < doms.length ∧ arc.HEAD < doms.length ∧
    nd = doms.set arc.TAIL ((doms.getD arc.TAIL ∅).filter (fun tail_val =>
      ∃ head_val ∈ doms.getD arc.HEAD ∅,
        arc.CONSTRAINT.is_satisfied_by_values tail_val (some head_val) = true)) ∧
    b = decide (((doms.getD arc.TAIL ∅).filter (fun tail_val =>
      ∃ head_val ∈ doms.getD arc.HEAD ∅,
        arc.CONSTRAINT.is_satisfied_by_values tail_val (some head_val) = true))
      ≠ doms.getD arc.TAIL ∅) := by
  unfold remove_inconsistent_values at h
  split at h
  case isTrue hlt =>
    have hget : doms.get ⟨arc.TAIL, hlt.1⟩ = doms.getD arc.TAIL ∅ := by
      rw [List.getD_eq_getElem _ _ hlt.1]
      rfl
    have hget2 : doms.get ⟨arc.HEAD, hlt.2⟩ = doms.getD arc.HEAD ∅ := by
      rw [List.getD_eq_getElem _ _ hlt.2]
      rfl
    rw [hget, hget2] at h
    injection h with h
    injection h with h1 h2
    exact ⟨hlt.1, hlt.2, h1.symm, h2.symm⟩
  case isFalse => cases h

/-- A successful revision step only shrinks the domains, preserving length. -/
theorem remove_inconsistent_values_subset (doms : List (Finset Nat)) (arc : Arc)
    (nd : List (Finset Nat)) (b : Bool)
    (h : remove_inconsistent_values doms arc = some (nd, b)) :
    (∀ i, nd.getD i ∅ ⊆ doms.getD i ∅) ∧ nd.length = doms.length := by
  obtain ⟨_, _, hnd, _⟩ := remove_inconsistent_values_eq doms arc nd b h
  subst hnd
  exact ⟨fun i => getD_set_subset _ _ _ (Finset.filter_subset _ _) i, List.length_set _ _ _⟩

/-- The AC-3 worklist loop only shrinks the domains. -/
theorem acLoopF_getD_subset (cs : List DateConstraint) :
    ∀ fuel doms wl i, ((acLoopF fuel doms cs wl).1).getD i ∅ ⊆ doms.getD i ∅ := by
  intro fuel
  induction fuel with
  | zero => intro doms wl i; exact Finset.Subset.refl _
  | succ fuel ih =>
    intro doms wl i
    cases wl with
    | nil => exact Finset.Subset.refl _
    | cons arc rest =>
      show ((match remove_inconsistent_values doms arc with
        | none => (doms, false)
        | some (newDoms, removed) =>
          if removed then
            acLoopF fuel newDoms cs ((get_arcs_for_variable arc.TAIL cs).foldl addArc rest)
          else acLoopF fuel newDoms cs rest).1).getD i ∅ ⊆ doms.getD i ∅
      cases hrm : remove_inconsistent_values doms arc with
      | none => exact Finset.Subset.refl _
      | some p =>
        obtain ⟨nd, b⟩ := p
        have hsub := (remove_inconsistent_values_subset doms arc nd b hrm).1
        cases b with
        | true => exact Finset.Subset.trans (ih nd _ i) (hsub i)
        | false => exact Finset.Subset.trans (ih nd _ i) (hsub i)

/-- A successful arc_consistency run only shrinks the domains. -/
theorem arc_consistency_ok_subset (doms : List (Finset Nat))
    (cs : List DateConstraint) (d : List (Finset Nat))
    (h : arc_consistency doms cs = Except.ok d) :
    ∀ i, d.getD i ∅ ⊆ doms.getD i ∅ := by
  unfold arc_consistency at h
  cases hinit : initialize_arcs cs with
  | error e => rw [hinit] at h; cases h
  | ok arcs =>
    rw [hinit] at h
    have h' : (match acLoopF (domSize doms * (cs.length + 1) + arcs.length + 1)
        doms cs arcs with
      | (newDoms, true) => Except.ok newDoms
      | (_, false) =>
        (Except.error "IndexError: list index out of range" : Except String (List (Finset Nat))))
        = Except.ok d := h
    cases hloop : acLoopF (domSize doms * (cs.length + 1) + arcs.length + 1) doms cs arcs with
    | mk nd flag =>
      rw [hloop] at h'
      cases flag with
      | true =>
        injection h' with h'
        subst h'
        intro i
        have hres := acLoopF_getD_subset cs
          (domSize doms * (cs.length + 1) + arcs.length + 1) doms arcs i
        rwa [hloop] at hres
      | false => cases h'

/-- C5: node_consistency, the AC-3 worklist loop (at any fuel and worklist,
covering the in-place state even when the run raises), and any successful
arc_consistency run only remove domain values: every variable's domain after
each filter, and after node consistency followed by arc consistency, is a
subset of that variable's domain before. -/
theorem pruning_monotone (doms : List (Finset Nat)) (cs : List DateConstraint) :
    (∀ i, (node_consistency doms cs).getD i ∅ ⊆ doms.getD i ∅) ∧
    (∀ fuel wl i, ((acLoopF fuel doms cs wl).1).getD i ∅ ⊆ doms.getD i ∅) ∧
    (∀ d, arc_consistency doms cs = Except.ok d → ∀ i, d.getD i ∅ ⊆ doms.getD i ∅) ∧
    (∀ d, arc_consistency (node_consistency doms cs) cs = Except.ok d →
      ∀ i, d.getD i ∅ ⊆ doms.getD i ∅) :=
  ⟨fun i => node_consistency_getD_subset doms cs i,
   fun fuel wl i => acLoopF_getD_subset cs fuel doms wl i,
   fun d h i => arc_consistency_ok_subset doms cs d h i,
   fun d h i => Finset.Subset.trans
     (arc_consistency_ok_subset (node_consistency doms cs) cs d h i)
     (node_consistency_getD_subset doms cs i)⟩

/-- Witness for C5 on a concrete run that removes a value. -/
theorem pruning_monotone_witness :
    ∀ i, (([{3}, {5}] : List (Finset Nat))).getD i ∅
      ⊆ (([{3, 7}, {5}] : List (Finset Nat))).getD i ∅ := by
  have h : arc_consistency [{3, 7}, {5}] [⟨2, 0, COp.clt, RVal.var 1⟩]
      = Except.ok [{3}, {5}] := rfl
  exact fun i =>
    (pruning_monotone [{3, 7}, {5}] [⟨2, 0, COp.clt, RVal.var 1⟩]).2.2.1 [{3}, {5}] h i

/-- Stack symmetry of the backtracker: a call frame that fails leaves the
threaded assignment list exactly as it found it, and a call frame that
succeeds leaves it equal to the returned solution (the source returns the
shared list itself). -/
theorem rbStep_state (vars : List Nat) (doms : List (Finset Nat))
    (cs : List DateConstraint) :
    ∀ fuel mode a,
      ((rbStep fuel mode a vars doms cs).1 = none →
        (rbStep fuel mode a vars doms cs).2 = a) ∧
      (∀ r, (rbStep fuel mode a vars doms cs).1 = some r →
        (rbStep fuel mode a vars doms cs).2 = r) := by
  intro fuel
  induction fuel with
  | zero =>
    intro mode a
    exact ⟨fun _ => rfl, fun r h => by cases h⟩
  | succ fuel ih =>
    intro mode a
    match mode with
    | none =>
      by_cases hlen : a.length = vars.length
      · simp only [rbStep, if_pos hlen]
        exact ⟨fun h => Option.noConfusion h, fun r h => Option.some.inj h⟩
      · simp only [rbStep, if_neg hlen]
        cases hsel : select_unassigned_variable vars a with
        | none => exact ⟨fun _ => rfl, fun r h => Option.noConfusion h⟩
        | some v => exact ih (some (v, order_domain_values (doms.getD v ∅))) a
    | some (v, vals) =>
      cases vals with
      | nil => exact ⟨fun _ => rfl, fun r h => Option.noConfusion h⟩
      | cons d rest =>
        simp only [rbStep]
        by_cases hcon : is_consistent (a ++ [(v, d)]) cs
        · simp only [if_pos hcon]
          cases hrec : (rbStep fuel none (a ++ [(v, d)]) vars doms cs).1 with
          | some r =>
            have hst := (ih none (a ++ [(v, d)])).2 r hrec
            exact ⟨fun h => Option.noConfusion h,
              fun r' h => hst.trans (Option.some.inj h)⟩
          | none =>
            have haOut : (rbStep fuel none (a ++ [(v, d)]) vars doms cs).2
                = a ++ [(v, d)] := (ih none (a ++ [(v, d)])).1 hrec
            rw [haOut, List.dropLast_concat]
            exact ih (some (v, rest)) a
        · simp only [if_neg hcon, List.dropLast_concat]
          exact ih (some (v, rest)) a

/-- No-collision invariant of the backtracker: starting from an assignment
with pairwise distinct variable indices (and, in loop mode, a selected
variable not among them), any returned solution again has pairwise distinct
variable indices. -/
theorem rbStep_nodup (vars : List Nat) (doms : List (Finset Nat))
    (cs : List DateConstraint) :
    ∀ fuel mode a, (a.map Prod.fst).Nodup →
      (∀ v vals, mode = some (v, vals) → v ∉ a.map Prod.fst) →
      ∀ r, (rbStep fuel mode a vars doms cs).1 = some r → (r.map Prod.fst).Nodup := by
  intro fuel
  induction fuel with
  | zero => intro mode a _ _ r h; cases h
  | succ fuel ih =>
    intro mode a hnd hmode r
    match mode with
    | none =>
      by_cases hlen : a.length = vars.length
      · simp only [rbStep, if_pos hlen]
        intro h
        injection h with h
        rwa [← h]
      · simp only [rbStep, if_neg hlen]
        cases hsel : select_unassigned_variable vars a with
        | none => intro h; cases h
        | some v =>
          have hvnot : v ∉ a.map Prod.fst := by
            have hp := List.find?_some hsel
            exact of_decide_eq_true hp
          exact ih (some (v, order_domain_values (doms.getD v ∅))) a hnd
            (fun v' vals' heq => by injection heq with heq; rw [← (Prod.mk.inj heq).1]; exact hvnot) r
    | some (v, vals) =>
      cases vals with
      | nil => intro h; cases h
      | cons d rest =>
        have hvnot : v ∉ a.map Prod.fst := hmode v (d :: rest) rfl
        have hnd1 : ((a ++ [(v, d)]).map Prod.fst).Nodup := by
          rw [List.map_append]
          simp [List.nodup_append, hnd, hvnot]
        simp only [rbStep]
        by_cases hcon : is_consistent (a ++ [(v, d)]) cs
        · simp only [if_pos hcon]
          cases hrec : (rbStep fuel none (a ++ [(v, d)]) vars doms cs).1 with
          | some r' =>
            intro h
            have hr' : r' = r := Option.some.inj h
            subst hr'
            exact ih none (a ++ [(v, d)]) hnd1 (fun _ _ heq => by cases heq) r' hrec
          | none =>
            have haOut : (rbStep fuel none (a ++ [(v, d)]) vars doms cs).2
                = a ++ [(v, d)] := (rbStep_state vars doms cs fuel none (a ++ [(v, d)])).1 hrec
            rw [haOut, List.dropLast_concat]
            exact ih (some (v, rest)) a hnd
              (fun v' vals' heq => by injection heq with heq; rw [← (Prod.mk.inj heq).1]; exact hvnot) r
        · simp only [if_neg hcon, List.dropLast_concat]
          exact ih (some (v, rest)) a hnd
            (fun v' vals' heq => by injection heq with heq; rw [← (Prod.mk.inj heq).1]; exact hvnot) r

/-- C6: stack symmetry and no variable collision. Whenever a call of the
backtracking search fails (returns the none outcome), the threaded assignment
list on exit equals the list on entry — every push inside the frame is undone
by a matching pop on every failure path. And starting from an assignment with
no repeated variable index, any solution the search returns (which is also
the exit state of the list) has no repeated variable index. -/
theorem backtracker_stack_symmetry (fuel : Nat) (a : Assignment) (vars : List Nat)
    (doms : List (Finset Nat)) (cs : List DateConstraint) :
    ((recursive_backtracker fuel a vars doms cs).1 = none →
      (recursive_backtracker fuel a vars doms cs).2 = a) ∧
    ((a.map Prod.fst).Nodup →
      ∀ r, (recursive_backtracker fuel a vars doms cs).1 = some r →
        (r.map Prod.fst).Nodup ∧ (recursive_backtracker fuel a vars doms cs).2 = r) :=
  ⟨(rbStep_state vars doms cs fuel none a).1,
   fun hnd r h =>
    ⟨rbStep_nodup vars doms cs fuel none a hnd (fun _ _ heq => by cases heq) r h,
     (rbStep_state vars doms cs fuel none a).2 r h⟩⟩

/-- Witness for C6: a failing search restores the empty entry assignment, and
a succeeding search returns a collision-free assignment. -/
theorem backtracker_stack_symmetry_witness :
    (recursive_backtracker 5 [] [0] [{0, 1}] [⟨1, 0, COp.clt, RVal.val 0⟩]).2 = [] ∧
    (([(0, 0)] : Assignment).map Prod.fst).Nodup :=
  ⟨(backtracker_stack_symmetry 5 [] [0] [{0, 1}] [⟨1, 0, COp.clt, RVal.val 0⟩]).1 rfl,
   ((backtracker_stack_symmetry 5 [] [0] [{0, 1}] []).2 (by decide) [(0, 0)] rfl).1⟩

/-- find? on a contiguous range returns the first index satisfying the
predicate. -/
theorem find?_range'_eq_some (p : Nat → Bool) :
    ∀ (m s k : Nat), s ≤ k → k < s + m → (∀ j, s ≤ j → j < k → p j = false) →
      p k = true → (List.range' s m).find? p = some k := by
  intro m
  induction m with
  | zero => intro s k h1 h2 _ _; omega
  | succ m ih =>
    intro s k h1 h2 hbelow hk
    rw [List.range'_succ]
    by_cases hs : s = k
    · subst hs
      exact List.find?_cons_of_pos _ hk
    · have hps : p s = false := hbelow s (Nat.le_refl s) (by omega)
      rw [List.find?_cons_of_neg _ (by rw [hps]; exact Bool.false_ne_true)]
      exact ih (s + 1) k (by omega) (by omega) (fun j hj1 hj2 => hbelow j (by omega) hj2) hk

/-- On an in-order assignment of k variables, the next selected variable is k
itself when k is below the number of variables. -/
theorem select_inorder (n : Nat) (a : Assignment)
    (hmap : a.map Prod.fst = List.range a.length) (hlt : a.length < n) :
    select_unassigned_variable (List.range n) a = some a.length := by
  unfold select_unassigned_variable
  rw [List.range_eq_range']
  apply find?_range'_eq_some _ n 0 a.length (Nat.zero_le _) (by omega)
  · intro j _ hj
    have : j ∈ a.map Prod.fst := by
      rw [hmap]
      exact List.mem_range.mpr hj
    simpa using this
  · have : a.length ∉ a.map Prod.fst := by
      rw [hmap]
      simp
    simpa using this

/-- On an in-order assignment with no variable left, selection returns none. -/
theorem select_inorder_none (n : Nat) (a : Assignment)
    (hmap : a.map Prod.fst = List.range a.length) (hge : n ≤ a.length) :
    select_unassigned_variable (List.range n) a = none := by
  rw [select_unassigned_variable, List.find?_eq_none]
  intro x hx
  have hxa : x ∈ a.map Prod.fst := by
    rw [hmap]
    exact List.mem_range.mpr (by have := List.mem_range.mp hx; omega)
  simp [hxa]

/-- The dates of an assignment, read positionally. -/
theorem getD_map_snd (s : Assignment) (i : Nat) (hi : i < s.length) :
    (s.map Prod.snd).getD i 0 = (s.getD i (0, 0)).2 := by
  rw [List.getD_eq_getElem _ _ (by simpa using hi), List.getD_eq_getElem _ _ hi,
    List.getElem_map]

/-- Appending the next in-order pair keeps the assignment in order. -/
theorem inorder_append (a : Assignment) (d : Nat)
    (hmap : a.map Prod.fst = List.range a.length) :
    (a ++ [(a.length, d)]).map Prod.fst = List.range (a ++ [(a.length, d)]).length := by
  rw [List.map_append, hmap]
  simp [List.range_succ]

/-- Soundness invariant of the backtracker over the in-order variable list
0..n-1: any returned solution is in order, assigns all n variables, and — 
unless it is the unchecked entry assignment itself — passes is_consistent. -/
theorem rbStep_sound (n : Nat) (doms : List (Finset Nat)) (cs : List DateConstraint) :
    ∀ fuel mode a,
      a.map Prod.fst = List.range a.length →
      (∀ v vals, mode = some (v, vals) → v = a.length ∧ a.length < n) →
      ∀ r, (rbStep fuel mode a (List.range n) doms cs).1 = some r →
        r.map Prod.fst = List.range r.length ∧ r.length = n ∧
        (r = a ∨ is_consistent r cs = true) := by
  intro fuel
  induction fuel with
  | zero => intro mode a _ _ r h; cases h
  | succ fuel ih =>
    intro mode a hmap hmode r
    match mode with
    | none =>
      by_cases hlen : a.length = (List.range n).length
      · simp only [rbStep, if_pos hlen]
        intro h
        have hr : a = r := Option.some.inj h
        subst hr
        exact ⟨hmap, by simpa using hlen, Or.inl rfl⟩
      · simp only [rbStep, if_neg hlen]
        cases hsel : select_unassigned_variable (List.range n) a with
        | none => intro h; cases h
        | some v =>
          have hlt : a.length < n := by
            by_contra hge
            have hnone := select_inorder_none n a hmap (by omega)
            rw [hnone] at hsel
            cases hsel
          have hv : v = a.length := by
            have h2 := select_inorder n a hmap hlt
            rw [h2] at hsel
            exact (Option.some.inj hsel).symm
          exact ih (some (v, order_domain_values (doms.getD v ∅))) a hmap
            (fun v' vals' heq => by
              injection heq with heq
              rw [← (Prod.mk.inj heq).1, hv]
              exact ⟨rfl, hlt⟩) r
    | some (v, vals) =>
      cases vals with
      | nil => intro h; cases h
      | cons d rest =>
        obtain ⟨hv, hlt⟩ := hmode v (d :: rest) rfl
        have hmap1 : (a ++ [(v, d)]).map Prod.fst
            = List.range (a ++ [(v, d)]).length := by
          rw [hv]
          exact inorder_append a d hmap
        simp only [rbStep]
        by_cases hcon : is_consistent (a ++ [(v, d)]) cs
        · simp only [if_pos hcon]
          cases hrec : (rbStep fuel none (a ++ [(v, d)]) (List.range n) doms cs).1 with
          | some r0 =>
            intro h
            have hr0 : r0 = r := Option.some.inj h
            subst hr0
            obtain ⟨h1, h2, h3⟩ := ih none (a ++ [(v, d)]) hmap1
              (fun _ _ heq => by cases heq) r0 hrec
            refine ⟨h1, h2, Or.inr ?_⟩
            cases h3 with
            | inl he => rw [he]; exact hcon
            | inr hc => exact hc
          | none =>
            have haOut : (rbStep fuel none (a ++ [(v, d)]) (List.range n) doms cs).2
                = a ++ [(v, d)] :=
              (rbStep_state (List.range n) doms cs fuel none (a ++ [(v, d)])).1 hrec
            rw [haOut, List.dropLast_concat]
            exact ih (some (v, rest)) a hmap
              (fun v' vals' heq => by
                injection heq with heq
                rw [← (Prod.mk.inj heq).1, hv]
                exact ⟨rfl, hlt⟩) r
        · simp only [if_neg hcon, List.dropLast_concat]
          exact ih (some (v, rest)) a hmap
            (fun v' vals' heq => by
              injection heq with heq
              rw [← (Prod.mk.inj heq).1, hv]
              exact ⟨rfl, hlt⟩) r

/-- Case characterization of the per-constraint consistency check. -/
theorem constraintCheck_eq (s : Assignment) (c : DateConstraint) :
    constraintCheck s c =
      if c.L_VAL < s.length then
        if c.ARITY = 2 then
          match c.R_VAL with
          | RVal.var j =>
            if j < s.length then
              c.is_satisfied_by_values ((s.getD c.L_VAL (0, 0)).2)
                (some ((s.getD j (0, 0)).2))
            else true
          | RVal.val d =>
            c.is_satisfied_by_values ((s.getD c.L_VAL (0, 0)).2) (some d)
        else c.is_satisfied_by_values ((s.getD c.L_VAL (0, 0)).2) none
      else true := by
  by_cases hL : c.L_VAL < s.length
  · by_cases h2 : c.ARITY = 2
    · cases hR : c.R_VAL with
      | var j =>
        by_cases hj : j < s.length
        · simp [constraintCheck, hL, h2, hR, hj, Nat.not_le, ge_iff_le, gt_iff_lt]
        · simp [constraintCheck, hL, h2, hR, hj, Nat.not_le, ge_iff_le, gt_iff_lt]
      | val d =>
        simp [constraintCheck, hL, h2, hR, Nat.not_le, ge_iff_le]
    · simp [constraintCheck, hL, h2, Nat.not_le, ge_iff_le]
  · simp [constraintCheck, hL, Nat.not_le, ge_iff_le, Nat.le_of_not_lt hL]

/-- A consistent full assignment satisfies every constraint whose indices are
within range, in the sense of is_satisfied_by_values on the assigned dates. -/
theorem is_consistent_full (s : Assignment) (cs : List DateConstraint)
    (hcons : is_consistent s cs = true) (c : DateConstraint) (hc : c ∈ cs)
    (hL : c.L_VAL < s.length) :
    (c.ARITY = 1 →
      c.is_satisfied_by_values ((s.map Prod.snd).getD c.L_VAL 0) none = true) ∧
    (c.ARITY = 2 → ∀ j, c.R_VAL = RVal.var j → j < s.length →
      c.is_satisfied_by_values ((s.map Prod.snd).getD c.L_VAL 0)
        (some ((s.map Prod.snd).getD j 0)) = true) ∧
    (c.ARITY = 2 → ∀ d, c.R_VAL = RVal.val d →
      c.is_satisfied_by_values ((s.map Prod.snd).getD c.L_VAL 0) (some d) = true) := by
  have hchk : constraintCheck s c = true := List.all_eq_true.mp hcons c hc
  rw [constraintCheck_eq, if_pos hL] at hchk
  refine ⟨fun h1 => ?_, fun h2 j hj hjlen => ?_, fun h2 d hd => ?_⟩
  · rw [if_neg (by omega : ¬c.ARITY = 2)] at hchk
    rw [getD_map_snd s _ hL]
    exact hchk
  · rw [if_pos h2, hj] at hchk
    rw [getD_map_snd s _ hL, getD_map_snd s _ hjlen]
    simpa [hjlen] using hchk
  · rw [if_pos h2, hd] at hchk
    rw [getD_map_snd s _ hL]
    exact hchk

/-- C1: soundness of solve. For at least one meeting, and constraints whose
variable indices all lie in the meeting range, whenever solve returns an
assignment list (rather than the none outcome or an exception), the list has
one date per meeting and every constraint of the input is satisfied: a unary
constraint by the date at index L_VAL, a binary constraint by the pair of the
date at L_VAL and the date at index R_VAL (when R_VAL is a variable index) or
the fixed value R_VAL itself. -/
theorem solve_sound (n : Nat) (dr : Finset Nat) (cs : List DateConstraint)
    (out : List Nat) (hn : 1 ≤ n)
    (hrange : ∀ c ∈ cs, c.L_VAL < n ∧ ∀ j, c.R_VAL = RVal.var j → j < n)
    (hsolve : solve n dr cs = Except.ok (some out)) :
    out.length = n ∧ ∀ c ∈ cs,
      (c.ARITY = 1 →
        c.is_satisfied_by_values (out.getD c.L_VAL 0) none = true) ∧
      (c.ARITY = 2 → ∀ j, c.R_VAL = RVal.var j →
        c.is_satisfied_by_values (out.getD c.L_VAL 0) (some (out.getD j 0)) = true) ∧
      (c.ARITY = 2 → ∀ d, c.R_VAL = RVal.val d →
        c.is_satisfied_by_values (out.getD c.L_VAL 0) (some d) = true) := by
  rw [solve_unfold] at hsolve
  cases hac : arc_consistency (node_consistency (List.replicate n (expandDateRange dr)) cs) cs with
  | error e =>
    rw [hac] at hsolve
    exact Except.noConfusion hsolve
  | ok d2 =>
    rw [hac] at hsolve
    have hsolve' : (match (recursive_backtracker (n * (maxDomCard d2 + 2) + 1) []
        (List.range n) d2 cs).1 with
      | some s => if s.isEmpty then
          (Except.ok none : Except String (Option (List Nat)))
        else Except.ok (some (s.map Prod.snd))
      | none => Except.ok none) = Except.ok (some out) := hsolve
    cases hrb : (recursive_backtracker (n * (maxDomCard d2 + 2) + 1) []
        (List.range n) d2 cs).1 with
    | none =>
      rw [hrb] at hsolve'
      exact Option.noConfusion (Except.ok.inj hsolve')
    | some s =>
      rw [hrb] at hsolve'
      have hsolve2 : (if s.isEmpty then
          (Except.ok none : Except String (Option (List Nat)))
        else Except.ok (some (s.map Prod.snd))) = Except.ok (some out) := hsolve'
      by_cases hempty : s.isEmpty
      · rw [if_pos hempty] at hsolve2
        exact Option.noConfusion (Except.ok.inj hsolve2)
      · rw [if_neg hempty] at hsolve2
        have hout : s.map Prod.snd = out :=
          Option.some.inj (Except.ok.inj hsolve2)
        obtain ⟨hmaps, hlens, hor⟩ := rbStep_sound n d2 cs
          (n * (maxDomCard d2 + 2) + 1) none [] rfl
          (fun _ _ heq => by cases heq) s hrb
        have hcons : is_consistent s cs = true := by
          cases hor with
          | inl he =>
            rw [he] at hlens
            simp at hlens
            omega
          | inr hc => exact hc
        have houtlen : out.length = n := by
          rw [← hout, List.length_map, hlens]
        refine ⟨houtlen, fun c hc => ?_⟩
        obtain ⟨hL, hR⟩ := hrange c hc
        have hfull := is_consistent_full s cs hcons c hc (by omega)
        refine ⟨fun h1 => ?_, fun h2 j hj => ?_, fun h2 d hd => ?_⟩
        · rw [← hout]
          exact hfull.1 h1
        · rw [← hout]
          exact hfull.2.1 h2 j hj (by have := hR j hj; omega)
        · rw [← hout]
          exact hfull.2.2 h2 d hd

/-- Witness for C1 on the concrete instance of one meeting, day 0 and no
constraints, where solve returns the single date hour 0 of day 0. -/
theorem solve_sound_witness :
    ([0] : List Nat).length = 1 ∧ ∀ c ∈ ([] : List DateConstraint),
      (c.ARITY = 1 →
        c.is_satisfied_by_values (([0] : List Nat).getD c.L_VAL 0) none = true) ∧
      (c.ARITY = 2 → ∀ j, c.R_VAL = RVal.var j →
        c.is_satisfied_by_values (([0] : List Nat).getD c.L_VAL 0)
          (some (([0] : List Nat).getD j 0)) = true) ∧
      (c.ARITY = 2 → ∀ d, c.R_VAL = RVal.val d →
        c.is_satisfied_by_values (([0] : List Nat).getD c.L_VAL 0) (some d) = true) := by
  have h : solve 1 {0} [] = Except.ok (some [0]) := rfl
  exact solve_sound 1 {0} [] [0] (by omega) (by simp) h

/-- The reversed operator evaluates its arguments in swapped order. -/
theorem COp.reverse_eval (op : COp) (a b : Nat) :
    op.reverse.eval a b = op.eval b a := by
  cases op with
  | ceq =>
    show (a == b) = (b == a)
    by_cases h : a = b
    · rw [h]
    · rw [beq_eq_false_iff_ne.mpr h, beq_eq_false_iff_ne.mpr (Ne.symm h)]
  | cne =>
    show (a != b) = (b != a)
    by_cases h : a = b
    · rw [h]
    · show (!(a == b)) = (!(b == a))
      rw [beq_eq_false_iff_ne.mpr h, beq_eq_false_iff_ne.mpr (Ne.symm h)]
  | clt => rfl
  | cgt => rfl
  | cle => rfl
  | cge => rfl

/-- Membership in a de-duplicating insertion. -/
theorem mem_addArc {arcs : List Arc} {a x : Arc} :
    x ∈ addArc arcs a ↔ x ∈ arcs ∨ x = a := by
  unfold addArc
  by_cases h : a ∈ arcs
  · rw [if_pos h]
    constructor
    · exact Or.inl
    · rintro (hx | rfl)
      · exact hx
      · exact h
  · rw [if_neg h]
    simp

/-- Membership after folding de-duplicating insertions. -/
theorem mem_foldl_addArc (l : List Arc) :
    ∀ acc x, x ∈ l.foldl addArc acc → x ∈ acc ∨ x ∈ l := by
  induction l with
  | nil => intro acc x h; exact Or.inl h
  | cons a rest ih =>
    intro acc x h
    rcases ih (addArc acc a) x h with h' | h'
    · rcases mem_addArc.mp h' with h'' | rfl
      · exact Or.inl h''
      · exact Or.inr (List.mem_cons_self _ _)
    · exact Or.inr (List.mem_cons_of_mem a h')

/-- Length bound of a de-duplicating insertion. -/
theorem length_addArc (arcs : List Arc) (a : Arc) :
    (addArc arcs a).length ≤ arcs.length + 1 := by
  unfold addArc
  by_cases h : a ∈ arcs
  · rw [if_pos h]; omega
  · rw [if_neg h]; simp

/-- Length bound after folding de-duplicating insertions. -/
theorem length_foldl_addArc (l : List Arc) :
    ∀ acc, (l.foldl addArc acc).length ≤ acc.length + l.length := by
  induction l with
  | nil => intro acc; simp
  | cons a rest ih =>
    intro acc
    have h1 := ih (addArc acc a)
    have h2 := length_addArc acc a
    simp only [List.foldl_cons, List.length_cons]
    omega

/-- Every arc produced by get_arcs_for_variable is the forward arc of some
arity-2 constraint of the set whose R_VAL is the given variable. -/
theorem mem_get_arcs_aux (v : Nat) :
    ∀ (cs : List DateConstraint) acc x,
      x ∈ cs.foldl (fun acc c =>
        if c.ARITY = 2 ∧ c.R_VAL = RVal.var v then addArc acc ⟨c, c.L_VAL, v⟩
        else acc) acc →
      x ∈ acc ∨ ∃ c ∈ cs, c.ARITY = 2 ∧ c.R_VAL = RVal.var v ∧ x = ⟨c, c.L_VAL, v⟩ := by
  intro cs
  induction cs with
  | nil => intro acc x h; exact Or.inl h
  | cons c rest ih =>
    intro acc x h
    simp only [List.foldl_cons] at h
    by_cases hc : c.ARITY = 2 ∧ c.R_VAL = RVal.var v
    · rw [if_pos hc] at h
      rcases ih (addArc acc ⟨c, c.L_VAL, v⟩) x h with h' | h'
      · rcases mem_addArc.mp h' with h'' | rfl
        · exact Or.inl h''
        · exact Or.inr ⟨c, List.mem_cons_self c rest, hc.1, hc.2, rfl⟩
      · obtain ⟨c', hc', hprops⟩ := h'
        exact Or.inr ⟨c', List.mem_cons_of_mem c hc', hprops⟩
    · rw [if_neg hc] at h
      rcases ih acc x h with h' | h'
      · exact Or.inl h'
      · obtain ⟨c', hc', hprops⟩ := h'
        exact Or.inr ⟨c', List.mem_cons_of_mem c hc', hprops⟩

/-- Characterization of get_arcs_for_variable membership. -/
theorem mem_get_arcs_for_variable (v : Nat) (cs : List DateConstraint) (x : Arc)
    (h : x ∈ get_arcs_for_variable v cs) :
    ∃ c ∈ cs, c.ARITY = 2 ∧ c.R_VAL = RVal.var v ∧ x = ⟨c, c.L_VAL, v⟩ := by
  rcases mem_get_arcs_aux v cs [] x h with h' | h'
  · cases h'
  · exact h'

/-- Length bound of get_arcs_for_variable. -/
theorem length_get_arcs_aux (v : Nat) :
    ∀ (cs : List DateConstraint) acc,
      (cs.foldl (fun acc c =>
        if c.ARITY = 2 ∧ c.R_VAL = RVal.var v then addArc acc ⟨c, c.L_VAL, v⟩
        else acc) acc).length ≤ acc.length + cs.length := by
  intro cs
  induction cs with
  | nil => intro acc; simp
  | cons c rest ih =>
    intro acc
    simp only [List.foldl_cons, List.length_cons]
    by_cases hc : c.ARITY = 2 ∧ c.R_VAL = RVal.var v
    · rw [if_pos hc]
      have h1 := ih (addArc acc ⟨c, c.L_VAL, v⟩)
      have h2 := length_addArc acc ⟨c, c.L_VAL, v⟩
      omega
    · rw [if_neg hc]
      have h1 := ih acc
      omega

/-- Length bound of get_arcs_for_variable against the constraint count. -/
theorem length_get_arcs_for_variable (v : Nat) (cs : List DateConstraint) :
    (get_arcs_for_variable v cs).length ≤ cs.length := by
  have h := length_get_arcs_aux v cs []
  simpa using h

/-- Setting an index to its own current value is the identity. -/
theorem set_getD_self (doms : List (Finset Nat)) (i : Nat) (hi : i < doms.length) :
    doms.set i (doms.getD i ∅) = doms := by
  apply List.ext_getElem (by simp)
  intro j h1 h2
  rw [List.getElem_set]
  split
  case isTrue hij =>
    subst hij
    rw [List.getD_eq_getElem _ _ hi]
  case isFalse => rfl

/-- Total domain size after replacing one domain by a smaller one. -/
theorem domSize_set_lt (doms : List (Finset Nat)) :
    ∀ i, i < doms.length → ∀ s : Finset Nat, s.card < (doms.getD i ∅).card →
      domSize (doms.set i s) < domSize doms := by
  induction doms with
  | nil => intro i hi; cases hi
  | cons dh dt ih =>
    intro i hi s hlt
    cases i with
    | zero =>
      simp only [List.set]
      have : (dh :: dt).getD 0 ∅ = dh := rfl
      rw [this] at hlt
      simp only [domSize, List.map_cons, List.sum_cons]
      omega
    | succ k =>
      simp only [List.set]
      have hk : k < dt.length := by simpa using hi
      have : (dh :: dt).getD (k + 1) ∅ = dt.getD k ∅ := rfl
      rw [this] at hlt
      have := ih k hk s hlt
      simp only [domSize, List.map_cons, List.sum_cons] at *
      omega

/-- Length of the in-order partial solution. -/
theorem solInit_length (sol : Nat → Nat) (k : Nat) : (solInit sol k).length = k := by
  rw [solInit, List.length_map, List.length_range]

/-- Entries of the in-order partial solution. -/
theorem solInit_getD (sol : Nat → Nat) (k i : Nat) (hi : i < k) :
    (solInit sol k).getD i (0, 0) = (i, sol i) := by
  rw [solInit, List.getD_eq_getElem _ _ (by simpa using hi)]
  simp

/-- The in-order partial solution is in order. -/
theorem solInit_map_fst (sol : Nat → Nat) (k : Nat) :
    (solInit sol k).map Prod.fst = List.range (solInit sol k).length := by
  rw [solInit_length, solInit, List.map_map]
  show List.map (fun i : Nat => i) (List.range k) = List.range k
  simp

/-- Extending the in-order partial solution by its next value. -/
theorem solInit_append (sol : Nat → Nat) (k : Nat) :
    solInit sol k ++ [(k, sol k)] = solInit sol (k + 1) := by
  simp [solInit, List.range_succ]

/-- Sorting a multiset does not change membership. -/
theorem mem_multisetSorted (x : Nat) (m : Multiset Nat) :
    x ∈ multisetSorted m ↔ x ∈ m := by
  induction m using Quot.inductionOn with
  | _ l =>
    show x ∈ List.insertionSort (· ≤ ·) l ↔ x ∈ (l : Multiset Nat)
    rw [Multiset.mem_coe]
    exact (List.perm_insertionSort _ l).mem_iff

/-- Membership in the ordered domain value list. -/
theorem mem_order_domain_values (x : Nat) (s : Finset Nat) :
    x ∈ order_domain_values s ↔ x ∈ s := by
  rw [order_domain_values, mem_multisetSorted]
  rfl

/-- The ordered domain value list has one entry per domain value. -/
theorem length_order_domain_values (s : Finset Nat) :
    (order_domain_values s).length = s.card := by
  rcases s with ⟨m, hnd⟩
  show (multisetSorted m).length = Multiset.card m
  induction m using Quot.inductionOn with
  | _ l =>
    show (List.insertionSort (· ≤ ·) l).length = Multiset.card (l : Multiset Nat)
    rw [(List.perm_insertionSort _ l).length_eq, Multiset.coe_card]

/-- Every domain's cardinality is bounded by maxDomCard. -/
theorem card_le_maxDomCard (doms : List (Finset Nat)) :
    ∀ i, i < doms.length → (doms.getD i ∅).card ≤ maxDomCard doms := by
  induction doms with
  | nil => intro i hi; cases hi
  | cons dh dt ih =>
    intro i hi
    cases i with
    | zero =>
      show dh.card ≤ maxDomCard (dh :: dt)
      simp only [maxDomCard, List.map_cons, List.foldr_cons]
      exact Nat.le_max_left _ _
    | succ k =>
      have hk : k < dt.length := by simpa using hi
      have h1 : (dh :: dt).getD (k + 1) ∅ = dt.getD k ∅ := rfl
      rw [h1]
      have h2 := ih k hk
      simp only [maxDomCard, List.map_cons, List.foldr_cons]
      exact Nat.le_trans h2 (Nat.le_max_right _ _)

/-- Entries of a replicated domains list. -/
theorem getD_replicate_lt (n i : Nat) (x : Finset Nat) (hi : i < n) :
    (List.replicate n x).getD i ∅ = x := by
  rw [List.getD_eq_getElem _ _ (by simpa using hi)]
  simp

/-- node_consistency never removes a value that satisfies all its unary
constraints, in particular a value drawn from a full solution. -/
theorem node_consistency_preserves_sol (doms : List (Finset Nat))
    (cs : List DateConstraint) (sol : Nat → Nat) (hsat : SatisfiesAll sol cs)
    (i : Nat) (hi : i < doms.length) (hmem : sol i ∈ doms.getD i ∅) :
    sol i ∈ (node_consistency doms cs).getD i ∅ := by
  rw [node_consistency, getD_map_range _ _ _ hi, Finset.mem_filter]
  refine ⟨hmem, fun c hc h1 hL => ?_⟩
  rw [← hL]
  exact (hsat c hc).1 h1

/-- constraintCheck on a constraint whose left index is unassigned. -/
theorem constraintCheck_skip (s : Assignment) (c : DateConstraint)
    (hL : s.length ≤ c.L_VAL) : constraintCheck s c = true := by
  rw [constraintCheck_eq, if_neg (by omega)]

/-- constraintCheck on a unary (non-arity-2) constraint with assigned left. -/
theorem constraintCheck_unary (s : Assignment) (c : DateConstraint)
    (hL : c.L_VAL < s.length) (h1 : ¬c.ARITY = 2) :
    constraintCheck s c
      = c.is_satisfied_by_values ((s.getD c.L_VAL (0, 0)).2) none := by
  rw [constraintCheck_eq, if_pos hL, if_neg h1]

/-- constraintCheck on a binary variable-variable constraint. -/
theorem constraintCheck_var (s : Assignment) (c : DateConstraint) (j : Nat)
    (hL : c.L_VAL < s.length) (h2 : c.ARITY = 2) (hj : c.R_VAL = RVal.var j) :
    constraintCheck s c
      = if j < s.length then
          c.is_satisfied_by_values ((s.getD c.L_VAL (0, 0)).2)
            (some ((s.getD j (0, 0)).2))
        else true := by
  rw [constraintCheck_eq, if_pos hL, if_pos h2, hj]

/-- constraintCheck on a binary fixed-value constraint. -/
theorem constraintCheck_val (s : Assignment) (c : DateConstraint) (d : Nat)
    (hL : c.L_VAL < s.length) (h2 : c.ARITY = 2) (hd : c.R_VAL = RVal.val d) :
    constraintCheck s c
      = c.is_satisfied_by_values ((s.getD c.L_VAL (0, 0)).2) (some d) := by
  rw [constraintCheck_eq, if_pos hL, if_pos h2, hd]

/-- Every in-order partial assignment drawn from a full solution passes the
consistency check, for well-formed constraints. -/
theorem is_consistent_solInit (cs : List DateConstraint) (sol : Nat → Nat)
    (n : Nat) (hsat : SatisfiesAll sol cs)
    (hwf : ∀ c ∈ cs, (c.ARITY = 1 ∧ ∃ d, c.R_VAL = RVal.val d) ∨
      (c.ARITY = 2 ∧ ∃ j, c.R_VAL = RVal.var j ∧ j < n)) :
    ∀ m, is_consistent (solInit sol m) cs = true := by
  intro m
  rw [is_consistent, List.all_eq_true]
  intro c hc
  by_cases hL : c.L_VAL < (solInit sol m).length
  · have hLm : c.L_VAL < m := by rwa [solInit_length] at hL
    rcases hwf c hc with ⟨h1, d, hd⟩ | ⟨h2, j, hj, hjn⟩
    · rw [constraintCheck_unary _ _ hL (by omega), solInit_getD _ _ _ hLm]
      exact (hsat c hc).1 h1
    · rw [constraintCheck_var _ _ j hL h2 hj]
      by_cases hjm : j < (solInit sol m).length
      · rw [if_pos hjm, solInit_getD _ _ _ hLm,
          solInit_getD _ _ _ (by rwa [solInit_length] at hjm)]
        exact (hsat c hc).2.1 h2 j hj
      · rw [if_neg hjm]
  · exact constraintCheck_skip _ _ (by omega)

/-- When every binary constraint has a variable-index R_VAL, the worklist
construction succeeds, and every produced arc is the forward or reverse arc of
some binary constraint of the set. -/
theorem initArcsAux_ok :
    ∀ (cs : List DateConstraint),
      (∀ c ∈ cs, c.ARITY = 2 → ∃ j, c.R_VAL = RVal.var j) →
      ∀ acc, ∃ arcs, initArcsAux acc cs = Except.ok arcs ∧
        ∀ x ∈ arcs, x ∈ acc ∨ ∃ c ∈ cs, ∃ j, c.ARITY = 2 ∧ c.R_VAL = RVal.var j ∧
          (x = ⟨c, c.L_VAL, j⟩ ∨ x = ⟨c.get_reverse, j, c.L_VAL⟩) := by
  intro cs
  induction cs with
  | nil =>
    intro _ acc
    exact ⟨acc, rfl, fun x hx => Or.inl hx⟩
  | cons c rest ih =>
    intro hwf acc
    by_cases h2 : c.ARITY = 2
    · obtain ⟨j, hj⟩ := hwf c (List.mem_cons_self _ _) h2
      have hfwd : mkArc c = Except.ok ⟨c, c.L_VAL, j⟩ := by
        unfold mkArc
        rw [hj]
      have hrevc : c.get_reverse = ⟨c.ARITY, j, c.op.reverse, RVal.var c.L_VAL⟩ := by
        unfold DateConstraint.get_reverse
        rw [hj]
      have hrev : mkArc c.get_reverse = Except.ok ⟨c.get_reverse, j, c.L_VAL⟩ := by
        rw [hrevc]
        rfl
      have hstep : initArcsAux acc (c :: rest)
          = initArcsAux (addArc (addArc acc ⟨c, c.L_VAL, j⟩) ⟨c.get_reverse, j, c.L_VAL⟩)
            rest := by
        simp only [initArcsAux, if_pos h2, hfwd, hrev]
      obtain ⟨arcs, hok, hchar⟩ :=
        ih (fun c' hc' => hwf c' (List.mem_cons_of_mem c hc'))
          (addArc (addArc acc ⟨c, c.L_VAL, j⟩) ⟨c.get_reverse, j, c.L_VAL⟩)
      refine ⟨arcs, hstep.trans hok, fun x hx => ?_⟩
      rcases hchar x hx with h' | h'
      · rcases mem_addArc.mp h' with h'' | rfl
        · rcases mem_addArc.mp h'' with h3 | rfl
          · exact Or.inl h3
          · exact Or.inr ⟨c, List.mem_cons_self _ _, j, h2, hj, Or.inl rfl⟩
        · exact Or.inr ⟨c, List.mem_cons_self _ _, j, h2, hj, Or.inr rfl⟩
      · obtain ⟨c', hc', hrest⟩ := h'
        exact Or.inr ⟨c', List.mem_cons_of_mem c hc', hrest⟩
    · have hstep : initArcsAux acc (c :: rest) = initArcsAux acc rest := by
        simp only [initArcsAux, if_neg h2]
      obtain ⟨arcs, hok, hchar⟩ :=
        ih (fun c' hc' => hwf c' (List.mem_cons_of_mem c hc')) acc
      refine ⟨arcs, hstep.trans hok, fun x hx => ?_⟩
      rcases hchar x hx with h' | h'
      · exact Or.inl h'
      · obtain ⟨c', hc', hrest⟩ := h'
        exact Or.inr ⟨c', List.mem_cons_of_mem c hc', hrest⟩

/-- The reversed binary constraint is satisfied by a swapped pair exactly when
the original is satisfied by the pair. -/
theorem get_reverse_satisfied (c : DateConstraint) (j : Nat) (h2 : c.ARITY = 2)
    (hj : c.R_VAL = RVal.var j) (a b : Nat) :
    c.get_reverse.is_satisfied_by_values b (some a)
      = c.is_satisfied_by_values a (some b) := by
  have hrevc : c.get_reverse = ⟨c.ARITY, j, c.op.reverse, RVal.var c.L_VAL⟩ := by
    unfold DateConstraint.get_reverse
    rw [hj]
  rw [hrevc]
  show DateConstraint.is_satisfied_by_values ⟨c.ARITY, j, c.op.reverse, RVal.var c.L_VAL⟩
      b (some a) = c.is_satisfied_by_values a (some b)
  unfold DateConstraint.is_satisfied_by_values
  rw [if_neg (by simp; omega), if_neg (by omega)]
  exact COp.reverse_eval c.op b a

/-- A revision step succeeds whenever both endpoints are in range. -/
theorem remove_inconsistent_values_isSome (doms : List (Finset Nat)) (arc : Arc)
    (hT : arc.TAIL < doms.length) (hH : arc.HEAD < doms.length) :
    ∃ nd b, remove_inconsistent_values doms arc = some (nd, b) := by
  unfold remove_inconsistent_values
  rw [dif_pos ⟨hT, hH⟩]
  exact ⟨_, _, rfl⟩

/-- Unfolding equation for one AC-3 worklist step. -/
theorem acLoopF_cons (fuel : Nat) (doms : List (Finset Nat))
    (cs : List DateConstraint) (arc : Arc) (rest : List Arc) :
    acLoopF (fuel + 1) doms cs (arc :: rest) =
      match remove_inconsistent_values doms arc with
      | none => (doms, false)
      | some (newDoms, removed) =>
        if removed then
          acLoopF fuel newDoms cs ((get_arcs_for_variable arc.TAIL cs).foldl addArc rest)
        else acLoopF fuel newDoms cs rest := rfl

/-- The AC-3 worklist loop never removes a value drawn from a full solution,
provided every worklist arc is satisfied by the solution's endpoint pair. -/
theorem acLoopF_preserves_sol (cs : List DateConstraint) (sol : Nat → Nat)
    (hsat : SatisfiesAll sol cs) :
    ∀ fuel doms wl,
      (∀ arc ∈ wl, arc.CONSTRAINT.is_satisfied_by_values (sol arc.TAIL)
        (some (sol arc.HEAD)) = true) →
      (∀ i, i < doms.length → sol i ∈ doms.getD i ∅) →
      (acLoopF fuel doms cs wl).1.length = doms.length ∧
      (∀ i, i < doms.length → sol i ∈ (acLoopF fuel doms cs wl).1.getD i ∅) := by
  intro fuel
  induction fuel with
  | zero => intro doms wl _ hmem; exact ⟨rfl, hmem⟩
  | succ fuel ih =>
    intro doms wl hgood hmem
    cases wl with
    | nil => exact ⟨rfl, hmem⟩
    | cons arc rest =>
      rw [acLoopF_cons]
      cases hrm : remove_inconsistent_values doms arc with
      | none => exact ⟨rfl, hmem⟩
      | some p =>
        obtain ⟨nd, b⟩ := p
        obtain ⟨hT, hH, hnd, _⟩ := remove_inconsistent_values_eq doms arc nd b hrm
        have hlen_nd : nd.length = doms.length := by
          rw [hnd]
          exact List.length_set _ _ _
        have hmem_nd : ∀ i, i < nd.length → sol i ∈ nd.getD i ∅ := by
          intro i hi
          rw [hlen_nd] at hi
          rw [hnd]
          by_cases hiT : i = arc.TAIL
          · subst hiT
            rw [List.getD_eq_getElem _ _ (by simpa using hi), List.getElem_set_self,
              Finset.mem_filter]
            exact ⟨hmem arc.TAIL hi, sol arc.HEAD, hmem arc.HEAD hH,
              hgood arc (List.mem_cons_self _ _)⟩
          · by_cases hilt : i < doms.length
            · rw [List.getD_eq_getElem _ _ (by simpa using hilt),
                List.getElem_set_ne (fun he => hiT he.symm),
                ← List.getD_eq_getElem _ _ hilt]
              exact hmem i hilt
            · omega
        cases b with
        | true =>
          have hgood' : ∀ arc' ∈ (get_arcs_for_variable arc.TAIL cs).foldl addArc rest,
              arc'.CONSTRAINT.is_satisfied_by_values (sol arc'.TAIL)
                (some (sol arc'.HEAD)) = true := by
            intro arc' harc'
            rcases mem_foldl_addArc _ _ _ harc' with h' | h'
            · exact hgood arc' (List.mem_cons_of_mem _ h')
            · obtain ⟨c, hc, h2c, hjc, rfl⟩ := mem_get_arcs_for_variable _ _ _ h'
              exact (hsat c hc).2.1 h2c arc.TAIL hjc
          have hres := ih nd ((get_arcs_for_variable arc.TAIL cs).foldl addArc rest)
            hgood' (fun i hi => hmem_nd i hi)
          exact ⟨hres.1.trans hlen_nd,
            fun i hi => hres.2 i (by rw [hlen_nd]; exact hi)⟩
        | false =>
          have hgood' : ∀ arc' ∈ rest, arc'.CONSTRAINT.is_satisfied_by_values
              (sol arc'.TAIL) (some (sol arc'.HEAD)) = true :=
            fun arc' h' => hgood arc' (List.mem_cons_of_mem _ h')
          have hres := ih nd rest hgood' (fun i hi => hmem_nd i hi)
          exact ⟨hres.1.trans hlen_nd,
            fun i hi => hres.2 i (by rw [hlen_nd]; exact hi)⟩

/-- With in-range arcs and constraints, the AC-3 worklist loop terminates with
its success flag within the fuel computed from the initial measure. -/
theorem acLoopF_flag_true (cs : List DateConstraint) :
    ∀ fuel doms wl,
      (∀ arc ∈ wl, arc.TAIL < doms.length ∧ arc.HEAD < doms.length) →
      (∀ c ∈ cs, c.L_VAL < doms.length) →
      domSize doms * (cs.length + 1) + wl.length < fuel →
      (acLoopF fuel doms cs wl).2 = true := by
  intro fuel
  induction fuel with
  | zero => intro doms wl _ _ hf; omega
  | succ fuel ih =>
    intro doms wl hwl hcs hf
    cases wl with
    | nil => rfl
    | cons arc rest =>
      obtain ⟨hT, hH⟩ := hwl arc (List.mem_cons_self _ _)
      obtain ⟨nd, b, hrm⟩ := remove_inconsistent_values_isSome doms arc hT hH
      obtain ⟨_, _, hnd, hb⟩ := remove_inconsistent_values_eq doms arc nd b hrm
      have hlen_nd : nd.length = doms.length := by
        rw [hnd]
        exact List.length_set _ _ _
      rw [acLoopF_cons, hrm]
      cases b with
      | true =>
        show (acLoopF fuel nd cs
          ((get_arcs_for_variable arc.TAIL cs).foldl addArc rest)).2 = true
        have hsize : domSize nd < domSize doms := by
          have hneq : ((doms.getD arc.TAIL ∅).filter (fun tail_val =>
              ∃ head_val ∈ doms.getD arc.HEAD ∅,
                arc.CONSTRAINT.is_satisfied_by_values tail_val (some head_val) = true))
              ≠ doms.getD arc.TAIL ∅ := of_decide_eq_true hb.symm
          have hcardlt : ((doms.getD arc.TAIL ∅).filter (fun tail_val =>
              ∃ head_val ∈ doms.getD arc.HEAD ∅,
                arc.CONSTRAINT.is_satisfied_by_values tail_val (some head_val) = true)).card
              < (doms.getD arc.TAIL ∅).card :=
            Finset.card_lt_card (Finset.ssubset_iff_subset_ne.mpr
              ⟨Finset.filter_subset _ _, hneq⟩)
          rw [hnd]
          exact domSize_set_lt doms arc.TAIL hT _ hcardlt
        have hwl' : ((get_arcs_for_variable arc.TAIL cs).foldl addArc rest).length
            ≤ rest.length + cs.length := by
          have h1 := length_foldl_addArc (get_arcs_for_variable arc.TAIL cs) rest
          have h2 := length_get_arcs_for_variable arc.TAIL cs
          omega
        apply ih
        · intro arc' harc'
          rcases mem_foldl_addArc _ _ _ harc' with h' | h'
          · have := hwl arc' (List.mem_cons_of_mem _ h')
            rw [hlen_nd]
            exact this
          · obtain ⟨c, hc, _, _, rfl⟩ := mem_get_arcs_for_variable _ _ _ h'
            rw [hlen_nd]
            exact ⟨hcs c hc, hT⟩
        · intro c hc
          rw [hlen_nd]
          exact hcs c hc
        · have hmul : (domSize nd + 1) * (cs.length + 1)
              ≤ domSize doms * (cs.length + 1) :=
            Nat.mul_le_mul_right _ (by omega)
          rw [Nat.add_mul, Nat.one_mul] at hmul
          have hlin := hf
          set P := domSize nd * (cs.length + 1) with hP
          set Q := domSize doms * (cs.length + 1) with hQ
          simp only [List.length_cons] at hlin
          omega
      | false =>
        show (acLoopF fuel nd cs rest).2 = true
        have hndd : nd = doms := by
          have heq : ((doms.getD arc.TAIL ∅).filter (fun tail_val =>
              ∃ head_val ∈ doms.getD arc.HEAD ∅,
                arc.CONSTRAINT.is_satisfied_by_values tail_val (some head_val) = true))
              = doms.getD arc.TAIL ∅ := by
            have := of_decide_eq_false hb.symm
            exact not_not.mp this
          rw [hnd, heq]
          exact set_getD_self doms arc.TAIL hT
        subst hndd
        apply ih nd rest (fun arc' h' => hwl arc' (List.mem_cons_of_mem _ h')) hcs
        simp only [List.length_cons] at hf
        omega

/-- Completeness invariant of the backtracker: from any in-order partial
assignment drawn from a full solution whose values all survive in the pruned
domains, the search succeeds, with fuel bounded linearly in the remaining
variables and the largest domain. -/
theorem rbStep_complete (n : Nat) (doms : List (Finset Nat))
    (cs : List DateConstraint) (sol : Nat → Nat) (D : Nat)
    (hcons : ∀ m, is_consistent (solInit sol m) cs = true)
    (hmem : ∀ i, i < n → sol i ∈ doms.getD i ∅)
    (hcard : ∀ i, i < n → (doms.getD i ∅).card ≤ D) :
    ∀ fuel,
      (∀ k, k ≤ n → (n - k) * (D + 2) + 1 ≤ fuel →
        (rbStep fuel none (solInit sol k) (List.range n) doms cs).1.isSome = true) ∧
      (∀ k vals, k < n → sol k ∈ vals →
        vals.length + ((n - k - 1) * (D + 2) + 1) ≤ fuel →
        (rbStep fuel (some (k, vals)) (solInit sol k) (List.range n) doms cs).1.isSome
          = true) := by
  intro fuel
  induction fuel with
  | zero =>
    constructor
    · intro k _ hfu; omega
    · intro k vals _ _ hfu
      have : 1 ≤ vals.length + ((n - k - 1) * (D + 2) + 1) := by omega
      omega
  | succ fuel ih =>
    constructor
    · intro k hk hfu
      by_cases hkn : k = n
      · subst hkn
        have hlen : (solInit sol k).length = (List.range k).length := by
          rw [solInit_length, List.length_range]
        simp only [rbStep, if_pos hlen]
        rfl
      · have hkn' : k < n := by omega
        have hlen : ¬(solInit sol k).length = (List.range n).length := by
          rw [solInit_length, List.length_range]
          omega
        have hsel : select_unassigned_variable (List.range n) (solInit sol k)
            = some k := by
          have := select_inorder n (solInit sol k) (solInit_map_fst sol k)
            (by rw [solInit_length]; omega)
          rwa [solInit_length] at this
        simp only [rbStep, if_neg hlen, hsel]
        apply (ih).2 k (order_domain_values (doms.getD k ∅)) hkn'
        · rw [mem_order_domain_values]
          exact hmem k hkn'
        · have hvl : (order_domain_values (doms.getD k ∅)).length ≤ D := by
            rw [length_order_domain_values]
            exact hcard k hkn'
          have hnk : n - k = (n - k - 1) + 1 := by omega
          have hexp : (n - k) * (D + 2) = (n - k - 1) * (D + 2) + (D + 2) := by
            conv_lhs => rw [hnk]
            rw [Nat.add_mul, Nat.one_mul]
          set P := (n - k - 1) * (D + 2) with hP
          set Q := (n - k) * (D + 2) with hQ
          omega
    · intro k vals hk hmemv hfu
      cases vals with
      | nil => cases hmemv
      | cons d rest =>
        simp only [rbStep]
        by_cases hd : d = sol k
        · subst hd
          have happ : solInit sol k ++ [(k, sol k)] = solInit sol (k + 1) := by
            exact solInit_append sol k
          rw [happ, if_pos (hcons (k + 1))]
          have hrec := (ih).1 (k + 1) (by omega) (by
            have : (n - (k + 1)) * (D + 2) + 1 ≤ fuel := by
              have hle : (n - (k + 1)) * (D + 2) = (n - k - 1) * (D + 2) := by
                have : n - (k + 1) = n - k - 1 := by omega
                rw [this]
              simp only [List.length_cons] at hfu
              omega
            exact this)
          cases hrb : (rbStep fuel none (solInit sol (k + 1)) (List.range n) doms cs).1 with
          | some r => rfl
          | none =>
            rw [hrb] at hrec
            cases hrec
        · have hmemr : sol k ∈ rest := by
            cases hmemv with
            | head => exact absurd rfl hd
            | tail _ h => exact h
          by_cases hcon2 : is_consistent (solInit sol k ++ [(k, d)]) cs
          · rw [if_pos hcon2]
            cases hrb : (rbStep fuel none (solInit sol k ++ [(k, d)])
                (List.range n) doms cs).1 with
            | some r => rfl
            | none =>
              have haOut : (rbStep fuel none (solInit sol k ++ [(k, d)])
                  (List.range n) doms cs).2 = solInit sol k ++ [(k, d)] :=
                (rbStep_state (List.range n) doms cs fuel none _).1 hrb
              rw [haOut, List.dropLast_concat]
              apply (ih).2 k rest hk hmemr
              simp only [List.length_cons] at hfu
              omega
          · rw [if_neg hcon2, List.dropLast_concat]
            apply (ih).2 k rest hk hmemr
            simp only [List.length_cons] at hfu
            omega

/-- C2 (counterexample to the claim as stated): a satisfiable instance on
which solve raises instead of returning an assignment. The single binary
constraint meeting0 ≠ fixed-date 5 references only variable 0, and hour 0 of
day 0 satisfies it, yet solve propagates the Arc construction ValueError. -/
theorem solve_complete_cex :
    (∀ i, i < 1 → (fun _ : Nat => 0) i ∈ expandDateRange {0}) ∧
    SatisfiesAll (fun _ => 0) [⟨2, 0, COp.cne, RVal.val 5⟩] ∧
    ∀ r : List Nat,
      solve 1 {0} [⟨2, 0, COp.cne, RVal.val 5⟩] ≠ Except.ok (some r) := by
  refine ⟨?_, ?_, ?_⟩
  · intro i hi
    have h0 : i = 0 := by omega
    subst h0
    decide
  · intro c hc
    rw [List.mem_singleton.mp hc]
    refine ⟨fun h1 => ?_, fun _ j hj => ?_, fun _ d hd => ?_⟩
    · exact absurd h1 (by decide)
    · cases hj
    · have hd5 : d = 5 := by
        injection hd with h
        exact h.symm
      subst hd5
      decide
  · intro r h
    exact Except.noConfusion
      ((show solve 1 {0} [⟨2, 0, COp.cne, RVal.val 5⟩]
        = Except.error "[X] Cannot create Arc from Unary Constraint" from rfl).symm.trans h)

/-- C2 (amended): completeness of solve for well-formed constraint sets whose
binary constraints reference a variable index on the right (those with a
fixed right value make solve raise, per the counterexample). If some full
assignment over the original hourly-expanded domains satisfies every
constraint, then solve returns an assignment and not the none outcome: node
and arc pruning never remove a value of that solution, and the backtracking
search over the pruned domains is exhaustive. -/
theorem solve_complete_amended (n : Nat) (dr : Finset Nat)
    (cs : List DateConstraint) (hn : 1 ≤ n)
    (hrange : ∀ c ∈ cs, c.L_VAL < n)
    (hwf : ∀ c ∈ cs, (c.ARITY = 1 ∧ ∃ d, c.R_VAL = RVal.val d) ∨
      (c.ARITY = 2 ∧ ∃ j, c.R_VAL = RVal.var j ∧ j < n))
    (hex : ∃ sol : Nat → Nat, (∀ i, i < n → sol i ∈ expandDateRange dr) ∧
      SatisfiesAll sol cs) :
    ∃ out, solve n dr cs = Except.ok (some out) := by
  obtain ⟨sol, hdom, hsat⟩ := hex
  have hlen1 : (node_consistency (List.replicate n (expandDateRange dr)) cs).length = n := by
    rw [node_consistency_length, List.length_replicate]
  have hmem1 : ∀ i, i < n →
      sol i ∈ (node_consistency (List.replicate n (expandDateRange dr)) cs).getD i ∅ := by
    intro i hi
    apply node_consistency_preserves_sol _ cs sol hsat i
      (by rw [List.length_replicate]; exact hi)
    rw [getD_replicate_lt n i _ hi]
    exact hdom i hi
  have hwf2 : ∀ c ∈ cs, c.ARITY = 2 → ∃ j, c.R_VAL = RVal.var j := by
    intro c hc h2
    rcases hwf c hc with ⟨h1, _⟩ | ⟨_, j, hj, _⟩
    · omega
    · exact ⟨j, hj⟩
  obtain ⟨arcs, hinit, hchar⟩ := initArcsAux_ok cs hwf2 []
  have hgood : ∀ x ∈ arcs,
      x.CONSTRAINT.is_satisfied_by_values (sol x.TAIL) (some (sol x.HEAD)) = true := by
    intro x hx
    rcases hchar x hx with h' | ⟨c, hc, j, h2, hj, hfr⟩
    · cases h'
    · rcases hfr with rfl | rfl
      · exact (hsat c hc).2.1 h2 j hj
      · show c.get_reverse.is_satisfied_by_values (sol j) (some (sol c.L_VAL)) = true
        rw [get_reverse_satisfied c j h2 hj]
        exact (hsat c hc).2.1 h2 j hj
  have hjlt : ∀ c ∈ cs, ∀ j, c.R_VAL = RVal.var j → j < n := by
    intro c hc j hj
    rcases hwf c hc with ⟨_, d, hd⟩ | ⟨_, j', hj', hjn'⟩
    · rw [hj] at hd; cases hd
    · rw [hj] at hj'
      have : j = j' := by injection hj'
      omega
  have hrange2 : ∀ x ∈ arcs,
      x.TAIL < (node_consistency (List.replicate n (expandDateRange dr)) cs).length ∧
      x.HEAD < (node_consistency (List.replicate n (expandDateRange dr)) cs).length := by
    intro x hx
    rw [hlen1]
    rcases hchar x hx with h' | ⟨c, hc, j, h2, hj, hfr⟩
    · cases h'
    · have hjn : j < n := hjlt c hc j hj
      rcases hfr with rfl | rfl
      · exact ⟨hrange c hc, hjn⟩
      · exact ⟨hjn, hrange c hc⟩
  have hcs1 : ∀ c ∈ cs,
      c.L_VAL < (node_consistency (List.replicate n (expandDateRange dr)) cs).length := by
    intro c hc
    rw [hlen1]
    exact hrange c hc
  have hacex : ∃ d2,
      arc_consistency (node_consistency (List.replicate n (expandDateRange dr)) cs) cs
        = Except.ok d2 ∧ d2.length = n ∧ ∀ i, i < n → sol i ∈ d2.getD i ∅ := by
    have hflag := acLoopF_flag_true cs
      (domSize (node_consistency (List.replicate n (expandDateRange dr)) cs)
        * (cs.length + 1) + arcs.length + 1)
      (node_consistency (List.replicate n (expandDateRange dr)) cs) arcs
      hrange2 hcs1 (by omega)
    have hpres := acLoopF_preserves_sol cs sol hsat
      (domSize (node_consistency (List.replicate n (expandDateRange dr)) cs)
        * (cs.length + 1) + arcs.length + 1)
      (node_consistency (List.replicate n (expandDateRange dr)) cs) arcs
      hgood (fun i hi => hmem1 i (by rw [← hlen1]; exact hi))
    refine ⟨(acLoopF (domSize (node_consistency (List.replicate n (expandDateRange dr)) cs)
        * (cs.length + 1) + arcs.length + 1)
      (node_consistency (List.replicate n (expandDateRange dr)) cs) cs arcs).1, ?_, ?_, ?_⟩
    · unfold arc_consistency initialize_arcs
      rw [hinit]
      have hpair : acLoopF (domSize (node_consistency (List.replicate n (expandDateRange dr)) cs)
            * (cs.length + 1) + arcs.length + 1)
          (node_consistency (List.replicate n (expandDateRange dr)) cs) cs arcs
          = ((acLoopF (domSize (node_consistency (List.replicate n (expandDateRange dr)) cs)
            * (cs.length + 1) + arcs.length + 1)
          (node_consistency (List.replicate n (expandDateRange dr)) cs) cs arcs).1, true) := by
        rw [← hflag]
      have hgoal : (match acLoopF (domSize (node_consistency
            (List.replicate n (expandDateRange dr)) cs) * (cs.length + 1) + arcs.length + 1)
            (node_consistency (List.replicate n (expandDateRange dr)) cs) cs arcs with
          | (newDoms, true) => Except.ok newDoms
          | (_, false) => (Except.error "IndexError: list index out of range"
              : Except String (List (Finset Nat))))
          = Except.ok ((acLoopF (domSize (node_consistency
            (List.replicate n (expandDateRange dr)) cs) * (cs.length + 1) + arcs.length + 1)
            (node_consistency (List.replicate n (expandDateRange dr)) cs) cs arcs).1) := by
        rw [hpair]
      exact hgoal
    · rw [hpres.1, hlen1]
    · intro i hi
      exact hpres.2 i (by rw [hlen1]; exact hi)
  obtain ⟨d2, hac, hlen2, hmem2⟩ := hacex
  have hcard2 : ∀ i, i < n → (d2.getD i ∅).card ≤ maxDomCard d2 := by
    intro i hi
    exact card_le_maxDomCard d2 i (by rw [hlen2]; exact hi)
  have hcomp := (rbStep_complete n d2 cs sol (maxDomCard d2)
    (is_consistent_solInit cs sol n hsat hwf) hmem2 hcard2
    (n * (maxDomCard d2 + 2) + 1)).1 0 (by omega) (by rw [Nat.sub_zero])
  have hzero : solInit sol 0 = [] := rfl
  rw [hzero] at hcomp
  obtain ⟨s, hrb⟩ := Option.isSome_iff_exists.mp hcomp
  obtain ⟨hmaps, hlens, hor⟩ := rbStep_sound n d2 cs
    (n * (maxDomCard d2 + 2) + 1) none [] rfl (fun _ _ h => by cases h) s hrb
  have hne : s.isEmpty = false := by
    cases s with
    | nil =>
      simp at hlens
      omega
    | cons p t => rfl
  refine ⟨s.map Prod.snd, ?_⟩
  rw [solve_unfold, hac]
  have hred : (match (recursive_backtracker (n * (maxDomCard d2 + 2) + 1) []
      (List.range n) d2 cs).1 with
    | some s => if s.isEmpty then
        (Except.ok none : Except String (Option (List Nat)))
      else Except.ok (some (s.map Prod.snd))
    | none => Except.ok none) = Except.ok (some (s.map Prod.snd)) := by
    rw [show (recursive_backtracker (n * (maxDomCard d2 + 2) + 1) []
      (List.range n) d2 cs).1 = some s from hrb]
    show (if s.isEmpty then (Except.ok none : Except String (Option (List Nat)))
      else Except.ok (some (s.map Prod.snd))) = Except.ok (some (s.map Prod.snd))
    rw [hne]
    rfl
  exact hred

/-- Witness for the amended C2 on the trivially satisfiable one-meeting
instance with no constraints. -/
theorem solve_complete_amended_witness :
    ∃ out, solve 1 {0} [] = Except.ok (some out) :=
  solve_complete_amended 1 {0} [] (by omega)
    (fun c hc => absurd hc (List.not_mem_nil c))
    (fun c hc => absurd hc (List.not_mem_nil c))
    ⟨fun _ => 0,
     fun i hi => by
       have h0 : i = 0 := by omega
       subst h0
       decide,
     fun c hc => absurd hc (List.not_mem_nil c)⟩
